import Mathlib

/-!
Shallow embedding of `src/server.py` (systemd-ui), the core functions the
specification's claims are about: the status reducer `upd_status`, the
run-history builder `list_runs` (discovery and aggregation phases), the
schedule resolver `schedule_for_unit` / `resolve_log_unit`, the catalog
functions `list_units` / `units_for_targets`, and the validation layer.

External collaborators (`systemctl`, `journalctl`) are modelled as an
environment `Env` of response data, and each embedded function also returns
the list of external queries it issued, in order.  Python dicts are modelled
as association lists with in-place-update insertion (`upsert`), Python sets
of strings as duplicate-free insertion into a list (`sinsert`), and
`list.sort` as the stable `List.mergeSort`.  Structured journal fields are
modelled after the `int()` parse attempt: `Option Int` is `none` exactly when
the field was missing or unparsable.  A malformed journal line
(`json.loads` failure or empty line) is a `none` entry of the record list.
ISO-rendered duplicates of the millisecond fields (`ms_to_iso`) carry no
independent information and are omitted.
-/

namespace SystemdUI

/-- Python `str.lower` restricted to ASCII case mapping. -/
def pyLower (s : String) : String := String.mk (s.toList.map Char.toLower)

/-- Python `needle in hay` substring test, on character lists. -/
def hasInfix (n : List Char) : List Char → Bool
  | [] => n.isEmpty
  | c :: t => n.isPrefixOf (c :: t) || hasInfix n t

/-- Python `needle in hay` on strings. -/
def strContains (hay needle : String) : Bool := hasInfix needle.toList hay.toList

/-- Python `s.startswith(p)`. -/
def pyStartsWith (s p : String) : Bool := p.toList.isPrefixOf s.toList

/-- Python `s.endswith(p)`. -/
def pyEndsWith (s p : String) : Bool := p.toList.isSuffixOf s.toList

/-- Character class of `UNIT_RE = ^[A-Za-z0-9:._@-]+$`. -/
def isUnitChar (c : Char) : Bool :=
  c.isAlpha || c.isDigit || c == ':' || c == '.' || c == '_' || c == '@' || c == '-'

/-- `UNIT_RE.fullmatch`: nonempty and every character in the class. -/
def unitRe (s : String) : Bool := s != "" && s.toList.all isUnitChar

/-- The entry validation `not (not unit or len(unit) > 200 or not UNIT_RE.fullmatch(unit))`. -/
def validUnit (s : String) : Bool := s != "" && s.length ≤ 200 && unitRe s

/-- Character class of `INVOCATION_RE = ^[0-9a-f]{32}$`. -/
def isHexLower (c : Char) : Bool := c.isDigit || ('a' ≤ c && c ≤ 'f')

/-- `INVOCATION_RE.fullmatch`: exactly 32 lowercase-hex characters. -/
def invRe (s : String) : Bool := s.length == 32 && s.toList.all isHexLower

/-- `usec_to_ms`: `None` on unparsable or non-positive input, else floor
division by 1000 (the input is positive, so `Int.toNat` is exact). -/
def usec_to_ms : Option Int → Option Int
  | none => none
  | some n => if n ≤ 0 then none else some ((n.toNat / 1000 : Nat) : Int)

/-- One parsed journal record: the fields `src/server.py` reads, each after
the corresponding `int()` attempt where the code parses it. -/
structure LogRecord where
  realtime : Option Int
  message : Option String
  invocationId : Option String
  cpuUsageNsec : Option Int
deriving DecidableEq

/-- `upd_status` from `list_runs` (src/server.py:231-237). -/
def upd_status (prev : String) (msg : Option String) : String :=
  let m := pyLower (msg.getD "")
  if strContains m "failed" || strContains m "error" || strContains m "exited" then
    "failed"
  else if strContains m "deactivated successfully" || pyStartsWith m "finished " then
    if prev = "failed" then prev else "success"
  else prev

/-- Discovery-phase loop body of `list_runs` (src/server.py:214-229): skip
malformed lines and missing or ill-formed invocation ids, keep the first
occurrence of each id, stop once `limit` ids are collected. -/
def discoverGo (limit : Int) : List (Option LogRecord) → List String → List String
  | [], acc => acc
  | line :: rest, acc =>
    match line with
    | none => discoverGo limit rest acc
    | some e =>
      match e.invocationId with
      | none => discoverGo limit rest acc
      | some inv =>
        if inv == "" || !invRe inv then discoverGo limit rest acc
        else if acc.contains inv then discoverGo limit rest acc
        else
          let acc1 := acc ++ [inv]
          if limit ≤ (acc1.length : Int) then acc1 else discoverGo limit rest acc1

/-- Discovery phase of `list_runs`, starting from no collected ids. -/
def discover (limit : Int) (lines : List (Option LogRecord)) : List String :=
  discoverGo limit lines []

/-- Mutable state of the aggregation loop of `list_runs` (src/server.py:250-275). -/
structure Agg where
  startMs : Option Int
  endMs : Option Int
  status : String
  cpu : Option Int
deriving DecidableEq

/-- One iteration of the aggregation loop: update min/max timestamp, the
running CPU maximum, then the status, exactly in the source's order. -/
def stepAgg (a : Agg) (line : Option LogRecord) : Agg :=
  match line with
  | none => a
  | some e =>
    let a1 := match usec_to_ms e.realtime with
      | none => a
      | some ts =>
        { a with
          startMs := some (match a.startMs with | none => ts | some s => min s ts),
          endMs := some (match a.endMs with | none => ts | some s => max s ts) }
    let a2 := match e.cpuUsageNsec with
      | none => a1
      | some c => { a1 with cpu := some (match a1.cpu with | none => c | some v => max v c) }
    { a2 with status := upd_status a2.status e.message }

/-- Aggregation over one invocation's records, from the initial state. -/
def aggRun (lines : List (Option LogRecord)) : Agg :=
  lines.foldl stepAgg ⟨none, none, "unknown", none⟩

/-- One element of the `runs` output of `list_runs` (src/server.py:278-287). -/
structure RunSummary where
  invocationId : String
  startMs : Option Int
  endMs : Option Int
  durationMs : Option Int
  status : String
  cpuUsageNsec : Option Int
deriving DecidableEq

/-- Build the `RunSummary` of one invocation from its records. -/
def mkRun (inv : String) (lines : List (Option LogRecord)) : RunSummary :=
  let a := aggRun lines
  { invocationId := inv
    startMs := a.startMs
    endMs := a.endMs
    durationMs := match a.startMs, a.endMs with
      | some s, some e => some (e - s)
      | _, _ => none
    status := a.status
    cpuUsageNsec := a.cpu }

/-- One external query, with every identifier string that the source
interpolates into the corresponding command line. -/
inductive Query where
  | listUnitFiles : Query
  | listUnits : Query
  | listTimers : Query
  | journalScan (unit : String) : Query
  | journalInv (unit : String) (inv : String) : Query
  | journalLogs (unit : String) (inv : String) (limit : Int) : Query
  | listDeps (target : String) : Query
  | showUnit (unit : String) : Query
  | catUnit (unit : String) : Query
deriving DecidableEq

/-- One item of the `systemctl list-timers --output=json` response, after the
JSON decode: `unit`, `activates`, and the `next`/`last` microsecond stamps
after the `int()` attempt inside `usec_to_ms`. -/
structure RawTimer where
  unit : Option String
  activates : Option String
  next : Option Int
  last : Option Int
deriving DecidableEq

/-- One element of the `list_timers` result (src/server.py:135-142). -/
structure Timer where
  timer : Option String
  activates : Option String
  nextMs : Option Int
  lastMs : Option Int
deriving DecidableEq

/-- Responses of the external collaborators, per query arguments.  The
embedding threads no failure through `Env`: every claim below concerns
behaviour on runs where the external commands succeed. -/
structure Env where
  unitFilesText : String
  unitsText : String
  timersRaw : List RawTimer
  journalScan : String → List (Option LogRecord)
  journalInv : String → String → List (Option LogRecord)
  journalText : String → String → Int → String
  depsText : String → String
  showText : String → String
  catText : String → String

/-- Code-point lexicographic order on character lists (how Python compares
strings when sorting). -/
def listCharLe : List Char → List Char → Bool
  | [], _ => true
  | _ :: _, [] => false
  | a :: as, b :: bs =>
    if a.toNat < b.toNat then true
    else if a.toNat == b.toNat then listCharLe as bs
    else false

/-- Python `a <= b` on strings: code-point lexicographic order. -/
def pyStrLe (a b : String) : Bool := listCharLe a.toList b.toList

/-- The per-item conversion of `list_timers`. -/
def timerOfRaw (it : RawTimer) : Timer :=
  { timer := it.unit
    activates := it.activates
    nextMs := usec_to_ms it.next
    lastMs := usec_to_ms it.last }

/-- The `list_timers` sort: by timer name, a missing name as `""`. -/
def timerNameLe (a b : Timer) : Bool := pyStrLe (a.timer.getD "") (b.timer.getD "")

/-- `list_timers` (src/server.py:122-144), with the query it issues. -/
def list_timers (env : Env) : List Timer × List Query :=
  ((env.timersRaw.map timerOfRaw).mergeSort timerNameLe, [Query.listTimers])

/-- The dict comprehension `by_timer` keyed by truthy timer name; a later
entry with the same key overrides an earlier one, hence the reversed search. -/
def byTimerGet (timers : List Timer) (u : String) : Option Timer :=
  timers.reverse.find? fun t =>
    match t.timer with
    | some s => s != "" && s == u
    | none => false

/-- The `candidates.sort` key order of the service branch
(src/server.py:169): lexicographic on `(nextMs is None, nextMs or 0)`. -/
def schedKeyLe (a b : Timer) : Bool :=
  let p := a.nextMs.isNone
  let q := b.nextMs.isNone
  (!p && q) || (p == q && decide (a.nextMs.getD 0 ≤ b.nextMs.getD 0))

/-- The `schedule_for_unit` result (ISO duplicates of the `Ms` fields omitted). -/
structure Sched where
  unit : String
  kind : String
  timer : Option String := none
  activates : Option String := none
  nextMs : Option Int := none
  lastMs : Option Int := none
deriving DecidableEq

/-- `schedule_for_unit` (src/server.py:147-182). -/
def schedule_for_unit (env : Env) (unit : String) : Except String Sched × List Query :=
  if !validUnit unit then (.error "invalid unit", [])
  else
    let (timers, qs) := list_timers env
    if pyEndsWith unit ".timer" then
      let t := byTimerGet timers unit
      (.ok { unit := unit, kind := "timer", timer := some unit,
             activates := t.bind (·.activates), nextMs := t.bind (·.nextMs),
             lastMs := t.bind (·.lastMs) }, qs)
    else if pyEndsWith unit ".service" then
      let candidates := timers.filter fun t => t.activates == some unit
      let t := (candidates.mergeSort schedKeyLe).head?
      (.ok { unit := unit, kind := "service", timer := t.bind (·.timer),
             activates := some unit, nextMs := t.bind (·.nextMs),
             lastMs := t.bind (·.lastMs) }, qs)
    else
      (.ok { unit := unit, kind := "other" }, qs)

/-- `resolve_log_unit` (src/server.py:185-191): for a timer unit, use its
`activates` target when that is a truthy string matching `UNIT_RE` (note: no
length bound is applied here), else the unit itself. -/
def resolve_log_unit (env : Env) (unit : String) : Except String String × List Query :=
  if pyEndsWith unit ".timer" then
    match schedule_for_unit env unit with
    | (.error e, qs) => (.error e, qs)
    | (.ok s, qs) =>
      match s.activates with
      | some a => if a != "" && unitRe a then (.ok a, qs) else (.ok unit, qs)
      | none => (.ok unit, qs)
  else (.ok unit, [])

/-- The `list_runs` result (src/server.py:289). -/
structure RunsResult where
  logUnit : String
  runs : List RunSummary
deriving DecidableEq

/-- `list_runs` (src/server.py:194-289): validate, resolve the log unit,
discover up to `limit` invocation ids from the bounded scan, then aggregate
one further query per id, in discovery order. -/
def list_runs (env : Env) (unit : String) (limit : Int) :
    Except String RunsResult × List Query :=
  if !validUnit unit then (.error "invalid unit", [])
  else if limit < 1 || 50 < limit then (.error "invalid limit", [])
  else
    match resolve_log_unit env unit with
    | (.error e, qs) => (.error e, qs)
    | (.ok log_unit, qs) =>
      let invs := discover limit (env.journalScan log_unit)
      let runs := invs.map fun inv => mkRun inv (env.journalInv log_unit inv)
      (.ok { logUnit := log_unit, runs := runs },
       qs ++ [Query.journalScan log_unit] ++ invs.map (Query.journalInv log_unit))

/-- `logs_for_invocation` (src/server.py:292-312). -/
def logs_for_invocation (env : Env) (unit inv : String) (limit : Int) :
    Except String String × List Query :=
  if !validUnit unit then (.error "invalid unit", [])
  else if inv == "" || !invRe inv then (.error "invalid invocation", [])
  else if limit < 1 || 5000 < limit then (.error "invalid limit", [])
  else
    match resolve_log_unit env unit with
    | (.error e, qs) => (.error e, qs)
    | (.ok log_unit, qs) =>
      (.ok (env.journalText log_unit inv limit), qs ++ [Query.journalLogs log_unit inv limit])

/-- Split a character list at every occurrence of `sep`, keeping empty
segments (the semantics of Python `str.split(sep)` for a one-character
separator, applied below for line and `=` splitting). -/
def splitCharGroups (sep : Char) : List Char → List (List Char)
  | [] => [[]]
  | c :: cs =>
    let r := splitCharGroups sep cs
    if c = sep then [] :: r
    else
      match r with
      | h :: t => (c :: h) :: t
      | [] => [[c]]

/-- Split a string at every occurrence of the character `sep`. -/
def pySplitChar (sep : Char) (s : String) : List String :=
  (splitCharGroups sep s.toList).map String.mk

/-- Python `str.strip()`: drop whitespace from both ends. -/
def pyStrip (s : String) : String :=
  String.mk (((s.toList.dropWhile Char.isWhitespace).reverse.dropWhile
    Char.isWhitespace).reverse)

/-- Python `s.split(None, n)` on a character list: strip leading whitespace,
then take up to `n` whitespace-delimited tokens followed by the remainder. -/
def splitWSN : Nat → List Char → List String
  | n, cs =>
    let cs1 := cs.dropWhile Char.isWhitespace
    if cs1 = [] then []
    else
      match n with
      | 0 => [String.mk cs1]
      | m + 1 =>
        let tok := cs1.takeWhile fun c => !c.isWhitespace
        String.mk tok :: splitWSN m (cs1.drop tok.length)

/-- Python dict insertion `d[k] = v` on an association list: replace the value
in place when the key exists, else append. -/
def upsert (m : List (String × α)) (k : String) (v : α) : List (String × α) :=
  if m.any (·.1 == k) then m.map fun p => if p.1 == k then (k, v) else p
  else m ++ [(k, v)]

/-- Python set insertion on a duplicate-free list. -/
def sinsert (l : List String) (x : String) : List String :=
  if l.contains x then l else l ++ [x]

/-- `parse_unit_files` (src/server.py:42-53), as a map from unit name to
unit-file state.  Python `splitlines` is modelled as splitting at newline. -/
def parse_unit_files (text : String) : List (String × String) :=
  (pySplitChar '\n' text).foldl
    (fun out line =>
      let s := pyStrip line
      if s == "" then out
      else
        match splitWSN 1 s.toList with
        | [unit, state] => upsert out unit state
        | _ => out)
    []

/-- `parse_units` (src/server.py:56-74), as a map from unit name to
`(loadState, activeState, subState, description)`. -/
def parse_units (text : String) : List (String × (String × String × String × String)) :=
  (pySplitChar '\n' text).foldl
    (fun out line =>
      let s := pyStrip line
      if s == "" then out
      else
        match splitWSN 4 s.toList with
        | [u, l, a, sub] => upsert out u (l, a, sub, "")
        | [u, l, a, sub, d] => upsert out u (l, a, sub, d)
        | _ => out)
    []

/-- One element of the merged catalog of `list_units`: a field is `none`
exactly when the corresponding source listing lacks the unit. -/
structure UnitItem where
  unit : String
  unitFileState : Option String := none
  loadState : Option String := none
  activeState : Option String := none
  subState : Option String := none
  description : Option String := none
deriving DecidableEq

/-- Name order for the catalog sort. -/
def unitNameLe (a b : UnitItem) : Bool := pyStrLe a.unit b.unit

/-- `list_units` (src/server.py:77-105): merge the two listings over the
union of their unit names and sort by name.  The union is iterated in
first-listing-then-second order; since names are unique the final sorted
catalog does not depend on that iteration order. -/
def list_units (env : Env) : List UnitItem × List Query :=
  let a := parse_unit_files env.unitFilesText
  let b := parse_units env.unitsText
  let names := (a.map (·.1) ++ b.map (·.1)).eraseDups
  let items := names.map fun u =>
    { unit := u
      unitFileState := (a.find? (·.1 == u)).map (·.2)
      loadState := (b.find? (·.1 == u)).map (·.2.1)
      activeState := (b.find? (·.1 == u)).map (·.2.2.1)
      subState := (b.find? (·.1 == u)).map (·.2.2.2.1)
      description := (b.find? (·.1 == u)).map (·.2.2.2.2) : UnitItem }
  (items.mergeSort unitNameLe, [Query.listUnitFiles, Query.listUnits])

/-- The character set of the dependency-line `lstrip` (src/server.py:335). -/
def depStripChars : List Char := [' ', '\t', '●', '○', '*', '├', '└', '│', '─']

/-- The skip condition of the `units_for_targets` loop (src/server.py:321):
a target that is falsy, over-long, not `UNIT_RE`, or without the `.target`
suffix is ignored. -/
def targetSkip (t : String) : Bool :=
  t == "" || 200 < t.length || !unitRe t || !pyEndsWith t ".target"

/-- Processing of one dependency-listing output line (src/server.py:334-340):
strip the tree-drawing characters, take the first whitespace token, and add
it to `wanted` when it matches `UNIT_RE`. -/
def depLineStep (w : List String) (line : String) : List String :=
  let s := String.mk (line.toList.dropWhile (depStripChars.contains ·))
  if s == "" then w
  else
    match splitWSN 1 s.toList with
    | u :: _ => if unitRe u then sinsert w u else w
    | [] => w

/-- Processing of one target of `units_for_targets` (src/server.py:320-340):
skip it, or query its dependency closure, add the target itself and every
well-formed first token of the output lines. -/
def wantedStep (env : Env) (acc : List String × List Query) (t : String) :
    List String × List Query :=
  if targetSkip t then acc
  else
    let deps := env.depsText t
    let w1 := sinsert acc.1 t
    let w2 := (pySplitChar '\n' deps).foldl depLineStep w1
    (w2, acc.2 ++ [Query.listDeps t])

/-- The `wanted` set of `units_for_targets` (src/server.py:319-341) together
with the dependency queries issued, in order. -/
def computeWanted (env : Env) (targets : List String) : List String × List Query :=
  targets.foldl (wantedStep env) ([], [])

/-- `units_for_targets` (src/server.py:315-346). -/
def units_for_targets (env : Env) (targets : List String) : List UnitItem × List Query :=
  if targets = [] then list_units env
  else
    let (wanted, qs) := computeWanted env targets
    if wanted = [] then
      let (items, qs2) := list_units env
      (items, qs ++ qs2)
    else
      let (items, qs2) := list_units env
      (items.filter fun u => wanted.contains u.unit, qs ++ qs2)

/-- The property parse of `unit_detail` (src/server.py:385-390): split each
line at the first `=`; later lines override earlier keys. -/
def parseProps (text : String) : List (String × String) :=
  (pySplitChar '\n' text).foldl
    (fun props line =>
      match pySplitChar '=' line with
      | k :: v1 :: vs =>
        upsert props k (String.mk (List.intercalate ['='] ((v1 :: vs).map String.toList)))
      | _ => props)
    []

/-- The `unit_detail` result. -/
structure UnitDetail where
  unit : String
  properties : List (String × String)
  cat : String
deriving DecidableEq

/-- `unit_detail` (src/server.py:349-393). -/
def unit_detail (env : Env) (unit : String) : Except String UnitDetail × List Query :=
  if !validUnit unit then (.error "invalid unit", [])
  else
    (.ok { unit := unit, properties := parseProps (env.showText unit),
           cat := env.catText unit },
     [Query.showUnit unit, Query.catUnit unit])

/-! ## Status reducer: helper lemmas -/

/-- From the `failed` state, `upd_status` returns `failed` on every message. -/
theorem upd_status_failed (m : Option String) : upd_status "failed" m = "failed" := by
  simp [upd_status]

/-- Folding any message list from the `failed` state stays at `failed`. -/
theorem foldl_upd_status_failed (l : List (Option String)) :
    l.foldl upd_status "failed" = "failed" := by
  induction l with
  | nil => rfl
  | cons m t ih => rw [List.foldl_cons, upd_status_failed]; exact ih

/-- C1: folding messages with `upd_status` from the initial status `unknown`,
once the status is `failed` it remains `failed` for every subsequent message,
including `deactivated successfully` and `finished ` messages. -/
theorem c1_status_monotonic (pre post : List (Option String))
    (h : pre.foldl upd_status "unknown" = "failed") :
    (pre ++ post).foldl upd_status "unknown" = "failed" := by
  rw [List.foldl_append, h, foldl_upd_status_failed]

theorem c1_status_monotonic_witness :
    (([some "job run failed"] ++ [some "Finished x.", some "deactivated successfully"]
      : List (Option String)).foldl upd_status "unknown") = "failed" :=
  c1_status_monotonic [some "job run failed"]
    [some "Finished x.", some "deactivated successfully"] (by rfl)

/-- C9: within a single message, failure classification wins: whenever the
lowercased message contains `failed`, `error`, or `exited`, `upd_status`
returns `failed` from every prior status, regardless of any success keyword
in the same message. -/
theorem c9_failure_precedence (prev msg : String)
    (h : (strContains (pyLower msg) "failed" || strContains (pyLower msg) "error" ||
      strContains (pyLower msg) "exited") = true) :
    upd_status prev (some msg) = "failed" := by
  unfold upd_status
  simp only [Option.getD_some]
  rw [if_pos]
  exact h

theorem c9_failure_precedence_witness :
    upd_status "success" (some "Process exited; finished and deactivated successfully") =
      "failed" :=
  c9_failure_precedence "success" "Process exited; finished and deactivated successfully"
    (by rfl)

/-! ## Aggregation phase: helper lemmas -/

/-- The parseable realtime timestamps (in ms) of a record list, in order. -/
def tsOf (lines : List (Option LogRecord)) : List Int :=
  lines.filterMap fun o => o.bind fun e => usec_to_ms e.realtime

/-- The parseable CPU-usage samples of a record list, in order. -/
def cpuOf (lines : List (Option LogRecord)) : List Int :=
  lines.filterMap fun o => o.bind fun e => e.cpuUsageNsec

/-- The message fields of the well-formed records, in order. -/
def msgsOf (lines : List (Option LogRecord)) : List (Option String) :=
  (lines.filterMap id).map fun e => e.message

/-- Running minimum, `none` meaning nothing seen yet. -/
def optFoldMin (o : Option Int) (l : List Int) : Option Int :=
  l.foldl (fun o c => some (match o with | none => c | some v => min v c)) o

/-- Running maximum, `none` meaning nothing seen yet. -/
def optFoldMax (o : Option Int) (l : List Int) : Option Int :=
  l.foldl (fun o c => some (match o with | none => c | some v => max v c)) o

/-- The aggregation fold decomposes componentwise: timestamps feed the
min/max, CPU samples feed the max, messages feed the status reducer. -/
theorem foldl_stepAgg_spec (lines : List (Option LogRecord)) (a : Agg) :
    lines.foldl stepAgg a =
      { startMs := optFoldMin a.startMs (tsOf lines)
        endMs := optFoldMax a.endMs (tsOf lines)
        status := (msgsOf lines).foldl upd_status a.status
        cpu := optFoldMax a.cpu (cpuOf lines) } := by
  induction lines generalizing a with
  | nil => simp [tsOf, msgsOf, cpuOf, optFoldMin, optFoldMax]
  | cons line rest ih =>
    cases line with
    | none => simp [stepAgg, ih, tsOf, msgsOf, cpuOf]
    | some e =>
      rw [List.foldl_cons, ih]
      cases hts : usec_to_ms e.realtime <;> cases hc : e.cpuUsageNsec <;>
        simp [stepAgg, tsOf, msgsOf, cpuOf, optFoldMin, optFoldMax, hts, hc]

theorem optFoldMin_some (l : List Int) : ∀ v : Int, ∃ w, optFoldMin (some v) l = some w := by
  induction l with
  | nil => exact fun v => ⟨v, rfl⟩
  | cons c t ih => exact fun v => ih (min v c)

theorem optFoldMax_some (l : List Int) : ∀ v : Int, ∃ w, optFoldMax (some v) l = some w := by
  induction l with
  | nil => exact fun v => ⟨v, rfl⟩
  | cons c t ih => exact fun v => ih (max v c)

theorem optFoldMin_none_iff (l : List Int) : optFoldMin none l = none ↔ l = [] := by
  cases l with
  | nil => simp [optFoldMin]
  | cons c t =>
    have h : optFoldMin none (c :: t) = optFoldMin (some c) t := rfl
    obtain ⟨w, hw⟩ := optFoldMin_some t c
    simp [h, hw]

theorem optFoldMax_none_iff (l : List Int) : optFoldMax none l = none ↔ l = [] := by
  cases l with
  | nil => simp [optFoldMax]
  | cons c t =>
    have h : optFoldMax none (c :: t) = optFoldMax (some c) t := rfl
    obtain ⟨w, hw⟩ := optFoldMax_some t c
    simp [h, hw]

theorem optFoldMin_some_spec (l : List Int) :
    ∀ v s : Int, optFoldMin (some v) l = some s →
      (s = v ∨ s ∈ l) ∧ s ≤ v ∧ ∀ t ∈ l, s ≤ t := by
  induction l with
  | nil =>
    intro v s h
    obtain rfl : v = s := by simpa [optFoldMin] using h
    simp
  | cons c t ih =>
    intro v s h
    have h2 : optFoldMin (some (min v c)) t = some s := h
    obtain ⟨hmem, hle, hall⟩ := ih (min v c) s h2
    refine ⟨?_, le_trans hle (min_le_left _ _), ?_⟩
    · rcases hmem with hv | hm
      · rcases min_choice v c with hmin | hmin
        · exact Or.inl (hv.trans hmin)
        · exact Or.inr (by simp [hv.trans hmin])
      · exact Or.inr (List.mem_cons_of_mem _ hm)
    · intro x hx
      rcases List.mem_cons.mp hx with rfl | hx
      · exact le_trans hle (min_le_right _ _)
      · exact hall x hx

theorem optFoldMax_some_spec (l : List Int) :
    ∀ v s : Int, optFoldMax (some v) l = some s →
      (s = v ∨ s ∈ l) ∧ v ≤ s ∧ ∀ t ∈ l, t ≤ s := by
  induction l with
  | nil =>
    intro v s h
    obtain rfl : v = s := by simpa [optFoldMax] using h
    simp
  | cons c t ih =>
    intro v s h
    have h2 : optFoldMax (some (max v c)) t = some s := h
    obtain ⟨hmem, hle, hall⟩ := ih (max v c) s h2
    refine ⟨?_, le_trans (le_max_left _ _) hle, ?_⟩
    · rcases hmem with hv | hm
      · rcases max_choice v c with hmax | hmax
        · exact Or.inl (hv.trans hmax)
        · exact Or.inr (by simp [hv.trans hmax])
      · exact Or.inr (List.mem_cons_of_mem _ hm)
    · intro x hx
      rcases List.mem_cons.mp hx with rfl | hx
      · exact le_trans (le_max_right _ _) hle
      · exact hall x hx

/-- `optFoldMin` from the empty state computes a least element of the list. -/
theorem optFoldMin_spec (l : List Int) (s : Int) (h : optFoldMin none l = some s) :
    s ∈ l ∧ ∀ t ∈ l, s ≤ t := by
  cases l with
  | nil => simp [optFoldMin] at h
  | cons c t =>
    have h2 : optFoldMin (some c) t = some s := h
    obtain ⟨hmem, hle, hall⟩ := optFoldMin_some_spec t c s h2
    refine ⟨?_, ?_⟩
    · rcases hmem with rfl | hm
      · exact List.mem_cons_self _ _
      · exact List.mem_cons_of_mem _ hm
    · intro x hx
      rcases List.mem_cons.mp hx with rfl | hx
      · exact hle
      · exact hall x hx

/-- `optFoldMax` from the empty state computes a greatest element of the list. -/
theorem optFoldMax_spec (l : List Int) (s : Int) (h : optFoldMax none l = some s) :
    s ∈ l ∧ ∀ t ∈ l, t ≤ s := by
  cases l with
  | nil => simp [optFoldMax] at h
  | cons c t =>
    have h2 : optFoldMax (some c) t = some s := h
    obtain ⟨hmem, hle, hall⟩ := optFoldMax_some_spec t c s h2
    refine ⟨?_, ?_⟩
    · rcases hmem with rfl | hm
      · exact List.mem_cons_self _ _
      · exact List.mem_cons_of_mem _ hm
    · intro x hx
      rcases List.mem_cons.mp hx with rfl | hx
      · exact hle
      · exact hall x hx

/-- Shape of a successful `list_runs` call: the unit and limit passed
validation, the log unit came from `resolve_log_unit`, the runs are the
aggregation of one further query per discovered invocation id, and the trace
records the scan plus those per-id queries. -/
theorem list_runs_ok (env : Env) (u : String) (lim : Int) (res : RunsResult) (tr : List Query)
    (h : list_runs env u lim = (.ok res, tr)) :
    validUnit u = true ∧ 1 ≤ lim ∧ lim ≤ 50 ∧
    ∃ qs0, resolve_log_unit env u = (.ok res.logUnit, qs0) ∧
      res.runs = (discover lim (env.journalScan res.logUnit)).map
        (fun i => mkRun i (env.journalInv res.logUnit i)) ∧
      tr = qs0 ++ [Query.journalScan res.logUnit] ++
        (discover lim (env.journalScan res.logUnit)).map (Query.journalInv res.logUnit) := by
  unfold list_runs at h
  split at h
  · exact absurd h (by simp)
  · split at h
    · exact absurd h (by simp)
    · rename_i hv hl
      split at h
      · exact absurd h (by simp)
      · rename_i lu qs0 hres
        have h1 : Except.ok (ε := String) ({ logUnit := lu, runs := (discover lim (env.journalScan lu)).map fun i => mkRun i (env.journalInv lu i) } : RunsResult) = .ok res := congrArg Prod.fst h
        have h2 := congrArg Prod.snd h
        simp only [Except.ok.injEq] at h1
        subst h1
        refine ⟨?_, ?_, ?_, qs0, ?_, ?_, ?_⟩
        · revert hv
          simp
        · revert hl
          simp only [Bool.or_eq_true, decide_eq_true_eq, not_or]
          omega
        · revert hl
          simp only [Bool.or_eq_true, decide_eq_true_eq, not_or]
          omega
        · exact hres
        · rfl
        · exact h2.symm

/-- C2: in every run summary the aggregation produces, `durationMs` is
non-null iff both `startMs` and `endMs` are, in which case
`durationMs = endMs - startMs ≥ 0`; `startMs` is the least and `endMs` the
greatest parseable realtime timestamp of the run's records; and every run
`list_runs` returns is exactly the aggregation of its own record query. -/
theorem c2_duration (inv : String) (lines : List (Option LogRecord)) :
    ((mkRun inv lines).durationMs.isSome ↔
      ((mkRun inv lines).startMs.isSome ∧ (mkRun inv lines).endMs.isSome)) ∧
    (∀ d, (mkRun inv lines).durationMs = some d →
      ∃ s e, (mkRun inv lines).startMs = some s ∧ (mkRun inv lines).endMs = some e ∧
        d = e - s ∧ 0 ≤ d) ∧
    (∀ s, (mkRun inv lines).startMs = some s → s ∈ tsOf lines ∧ ∀ t ∈ tsOf lines, s ≤ t) ∧
    (∀ e, (mkRun inv lines).endMs = some e → e ∈ tsOf lines ∧ ∀ t ∈ tsOf lines, t ≤ e) ∧
    (∀ env u lim res tr, list_runs env u lim = (Except.ok res, tr) →
      ∀ r ∈ res.runs, r = mkRun r.invocationId (env.journalInv res.logUnit r.invocationId)) := by
  have hagg : aggRun lines =
      { startMs := optFoldMin none (tsOf lines)
        endMs := optFoldMax none (tsOf lines)
        status := (msgsOf lines).foldl upd_status "unknown"
        cpu := optFoldMax none (cpuOf lines) } := foldl_stepAgg_spec lines _
  refine ⟨?_, ?_, ?_, ?_, ?_⟩
  · simp only [mkRun, hagg]
    cases hmin : optFoldMin none (tsOf lines) with
    | none =>
      have : tsOf lines = [] := (optFoldMin_none_iff _).mp hmin
      have hmax : optFoldMax none (tsOf lines) = none := (optFoldMax_none_iff _).mpr this
      simp [hmax]
    | some s =>
      have hne : tsOf lines ≠ [] := by
        intro hnil
        rw [(optFoldMin_none_iff _).mpr hnil] at hmin
        exact Option.noConfusion hmin
      obtain ⟨e, hmax⟩ : ∃ e, optFoldMax none (tsOf lines) = some e := by
        cases hmx : optFoldMax none (tsOf lines) with
        | none => exact absurd ((optFoldMax_none_iff _).mp hmx) hne
        | some e => exact ⟨e, rfl⟩
      simp [hmax]
  · intro d hd
    simp only [mkRun, hagg] at hd ⊢
    cases hmin : optFoldMin none (tsOf lines) with
    | none => rw [hmin] at hd; simp at hd
    | some s =>
      cases hmax : optFoldMax none (tsOf lines) with
      | none => rw [hmin, hmax] at hd; simp at hd
      | some e =>
        rw [hmin, hmax] at hd
        obtain rfl : e - s = d := by simpa using hd
        obtain ⟨hsmem, hsle⟩ := optFoldMin_spec _ _ hmin
        obtain ⟨hemem, hele⟩ := optFoldMax_spec _ _ hmax
        exact ⟨s, e, rfl, rfl, rfl, by have := hsle e hemem; omega⟩
  · intro s hs
    simp only [mkRun, hagg] at hs
    exact optFoldMin_spec _ _ hs
  · intro e he
    simp only [mkRun, hagg] at he
    exact optFoldMax_spec _ _ he
  · intro env u lim res tr h r hr
    obtain ⟨-, -, -, qs0, -, hruns, -⟩ := list_runs_ok env u lim res tr h
    rw [hruns] at hr
    obtain ⟨i, hi, rfl⟩ := List.mem_map.mp hr
    simp [mkRun]

theorem c2_duration_witness :
    (5000 : Int) ∈ tsOf [some ⟨some 5000000, none, none, none⟩,
      some ⟨some 9000000, none, none, none⟩] :=
  (((c2_duration "i" [some ⟨some 5000000, none, none, none⟩,
      some ⟨some 9000000, none, none, none⟩]).2.2.1) 5000 (by rfl)).1

/-- C7: the aggregated `cpuUsageNsec` is the maximum CPU-usage sample of the
run's records, `none` when there is no parseable sample, never decreases as
further records are folded, and samples 100, 50, 300 yield 300. -/
theorem c7_cpu_max (lines : List (Option LogRecord)) :
    ((aggRun lines).cpu = none ↔ cpuOf lines = []) ∧
    (∀ v, (aggRun lines).cpu = some v → v ∈ cpuOf lines ∧ ∀ c ∈ cpuOf lines, c ≤ v) ∧
    (∀ more v, (aggRun lines).cpu = some v →
      ∃ w, (aggRun (lines ++ more)).cpu = some w ∧ v ≤ w) ∧
    (aggRun [some ⟨none, none, none, some 100⟩, some ⟨none, none, none, some 50⟩,
      some ⟨none, none, none, some 300⟩]).cpu = some 300 := by
  have hagg : ∀ ls : List (Option LogRecord), (aggRun ls).cpu = optFoldMax none (cpuOf ls) := by
    intro ls
    rw [aggRun, foldl_stepAgg_spec ls _]
  refine ⟨?_, ?_, ?_, by rfl⟩
  · rw [hagg]
    constructor
    · exact fun h => (optFoldMax_none_iff _).mp h
    · exact fun h => (optFoldMax_none_iff _).mpr h
  · intro v hv
    rw [hagg] at hv
    exact optFoldMax_spec _ _ hv
  · intro more v hv
    rw [hagg] at hv ⊢
    have happ : cpuOf (lines ++ more) = cpuOf lines ++ cpuOf more := by
      simp [cpuOf]
    rw [happ]
    have hfold : optFoldMax none (cpuOf lines ++ cpuOf more) =
        optFoldMax (optFoldMax none (cpuOf lines)) (cpuOf more) := by
      simp [optFoldMax, List.foldl_append]
    rw [hfold, hv]
    obtain ⟨w, hw⟩ := optFoldMax_some (cpuOf more) v
    exact ⟨w, hw, ((optFoldMax_some_spec _ _ _ hw).2.1)⟩

theorem c7_cpu_max_witness :
    (300 : Int) ∈ cpuOf [some ⟨none, none, none, some 100⟩, some ⟨none, none, none, some 50⟩,
      some ⟨none, none, none, some 300⟩] :=
  ((c7_cpu_max [some ⟨none, none, none, some 100⟩, some ⟨none, none, none, some 50⟩,
      some ⟨none, none, none, some 300⟩]).2.1 300 (by rfl)).1

/-! ## Discovery phase: helper lemmas -/

/-- The discovery-phase filter applied to one scanned line: the invocation id
when the line is well formed, truthy and matches `INVOCATION_RE`. -/
def validInvOf (line : Option LogRecord) : Option String :=
  match line with
  | none => none
  | some e =>
    match e.invocationId with
    | none => none
    | some inv => if inv == "" || !invRe inv then none else some inv

/-- The well-formed invocation ids of the scan, in store order. -/
def validInvs (lines : List (Option LogRecord)) : List String :=
  lines.filterMap validInvOf

/-- Specification-side description of the discovery output: the distinct
elements in first-seen order, excluding those already `seen`. -/
def dedupFrom (seen : List String) : List String → List String
  | [] => []
  | x :: xs =>
    if seen.contains x then dedupFrom seen xs else x :: dedupFrom (seen ++ [x]) xs

theorem dedupFrom_mem :
    ∀ (l seen : List String) (x : String), x ∈ dedupFrom seen l →
      x ∈ l ∧ ¬ x ∈ seen := by
  intro l
  induction l with
  | nil => intro seen x hx; simp [dedupFrom] at hx
  | cons y ys ih =>
    intro seen x hx
    rw [dedupFrom] at hx
    by_cases hy : seen.contains y = true
    · rw [if_pos hy] at hx
      obtain ⟨h1, h2⟩ := ih seen x hx
      exact ⟨List.mem_cons_of_mem _ h1, h2⟩
    · rw [if_neg hy] at hx
      rcases List.mem_cons.mp hx with rfl | hx
      · exact ⟨List.mem_cons_self _ _, by simpa using hy⟩
      · obtain ⟨h1, h2⟩ := ih (seen ++ [y]) x hx
        refine ⟨List.mem_cons_of_mem _ h1, fun hmem => h2 ?_⟩
        exact List.mem_append.mpr (Or.inl hmem)

theorem dedupFrom_nodup : ∀ (l seen : List String), (dedupFrom seen l).Nodup := by
  intro l
  induction l with
  | nil => intro seen; simp [dedupFrom]
  | cons y ys ih =>
    intro seen
    rw [dedupFrom]
    by_cases hy : seen.contains y = true
    · rw [if_pos hy]; exact ih seen
    · rw [if_neg hy]
      refine List.nodup_cons.mpr ⟨?_, ih (seen ++ [y])⟩
      intro hmem
      exact (dedupFrom_mem ys (seen ++ [y]) y hmem).2
        (List.mem_append.mpr (Or.inr (List.mem_cons_self _ _)))

/-- The discovery loop, from a partially filled accumulator below the limit,
appends the not-yet-seen ids in first-seen order, truncated to the limit. -/
theorem discoverGo_eq (limit : Int) (lines : List (Option LogRecord)) :
    ∀ acc : List String, (acc.length : Int) < limit →
      discoverGo limit lines acc =
        acc ++ (dedupFrom acc (validInvs lines)).take (limit - acc.length).toNat := by
  induction lines with
  | nil => intro acc _; simp [discoverGo, validInvs, dedupFrom]
  | cons line rest ih =>
    intro acc hacc
    cases line with
    | none =>
      have hgo : discoverGo limit (none :: rest) acc = discoverGo limit rest acc := rfl
      have hvi : validInvs (none :: rest) = validInvs rest := rfl
      rw [hgo, hvi]
      exact ih acc hacc
    | some e =>
      obtain ⟨rt, msg, einv, cpu⟩ := e
      cases einv with
      | none =>
        have hgo : discoverGo limit (some ⟨rt, msg, none, cpu⟩ :: rest) acc =
            discoverGo limit rest acc := rfl
        have hvi : validInvs (some ⟨rt, msg, none, cpu⟩ :: rest) = validInvs rest := rfl
        rw [hgo, hvi]
        exact ih acc hacc
      | some inv =>
        have hgo : discoverGo limit (some ⟨rt, msg, some inv, cpu⟩ :: rest) acc =
            if inv == "" || !invRe inv then discoverGo limit rest acc
            else if acc.contains inv then discoverGo limit rest acc
            else if limit ≤ ((acc ++ [inv]).length : Int) then acc ++ [inv]
            else discoverGo limit rest (acc ++ [inv]) := rfl
        rw [hgo]
        by_cases hbad : (inv == "" || !invRe inv) = true
        · have hvi : validInvs (some ⟨rt, msg, some inv, cpu⟩ :: rest) = validInvs rest := by
            simp [validInvs, validInvOf, hbad]
          rw [if_pos hbad, hvi]
          exact ih acc hacc
        · have hvi : validInvs (some ⟨rt, msg, some inv, cpu⟩ :: rest) =
              inv :: validInvs rest := by
            simp only [validInvs, List.filterMap_cons, validInvOf]
            rw [if_neg hbad]
          rw [if_neg hbad, hvi, dedupFrom]
          by_cases hcon : acc.contains inv = true
          · rw [if_pos hcon, if_pos hcon]
            exact ih acc hacc
          · rw [if_neg hcon, if_neg hcon]
            by_cases hstop : limit ≤ ((acc ++ [inv]).length : Int)
            · rw [if_pos hstop]
              have hlen : ((acc ++ [inv]).length : Int) = acc.length + 1 := by
                simp
              have h1 : (limit - acc.length).toNat = 1 := by
                rw [hlen] at hstop; omega
              rw [h1, List.take_succ_cons, List.take_zero]
            · rw [if_neg hstop]
              have hlen : ((acc ++ [inv]).length : Int) = acc.length + 1 := by
                simp
              have hlt : ((acc ++ [inv]).length : Int) < limit := by omega
              rw [ih (acc ++ [inv]) hlt]
              have h1 : (limit - acc.length).toNat =
                  (limit - (acc ++ [inv]).length).toNat + 1 := by
                rw [hlen] at hstop ⊢; omega
              rw [h1, List.take_succ_cons]
              simp

/-- The discovery phase equals the deduplicated well-formed ids, truncated. -/
theorem discover_eq (limit : Int) (h1 : 1 ≤ limit) (lines : List (Option LogRecord)) :
    discover limit lines = (dedupFrom [] (validInvs lines)).take limit.toNat := by
  have h := discoverGo_eq limit lines [] (by simpa using h1)
  simpa [discover] using h

theorem discover_nodup (limit : Int) (h1 : 1 ≤ limit) (lines : List (Option LogRecord)) :
    (discover limit lines).Nodup := by
  rw [discover_eq limit h1 lines]
  exact List.Nodup.sublist (List.take_sublist _ _) (dedupFrom_nodup _ _)

theorem discover_length (limit : Int) (h1 : 1 ≤ limit) (lines : List (Option LogRecord)) :
    ((discover limit lines).length : Int) ≤ limit := by
  rw [discover_eq limit h1 lines]
  have := List.length_take_le limit.toNat (dedupFrom [] (validInvs lines))
  omega

theorem validInvs_invRe (lines : List (Option LogRecord)) (x : String)
    (hx : x ∈ validInvs lines) : invRe x = true := by
  obtain ⟨line, -, hline⟩ := List.mem_filterMap.mp hx
  cases line with
  | none => simp [validInvOf] at hline
  | some e =>
    obtain ⟨rt, msg, einv, cpu⟩ := e
    cases einv with
    | none => simp [validInvOf] at hline
    | some inv =>
      by_cases hbad : (inv == "" || !invRe inv) = true
      · have hred : validInvOf (some ⟨rt, msg, some inv, cpu⟩) = none := by
          simp [validInvOf, hbad]
        rw [hred] at hline
        exact Option.noConfusion hline
      · have hred : validInvOf (some ⟨rt, msg, some inv, cpu⟩) = some inv := by
          simp only [validInvOf]
          rw [if_neg hbad]
        rw [hred] at hline
        obtain rfl : inv = x := by simpa using hline
        simp only [Bool.or_eq_true, Bool.not_eq_true] at hbad
        push_neg at hbad
        simpa using hbad.2

theorem discover_invRe (limit : Int) (h1 : 1 ≤ limit) (lines : List (Option LogRecord))
    (x : String) (hx : x ∈ discover limit lines) : invRe x = true := by
  rw [discover_eq limit h1 lines] at hx
  have hx2 := List.mem_of_mem_take hx
  exact validInvs_invRe lines x (dedupFrom_mem _ _ _ hx2).1

/-- 32-character invocation ids for the concrete discovery scenario. -/
def invA : String := String.mk (List.replicate 32 'a')

def invB : String := String.mk (List.replicate 32 'b')

def invC : String := String.mk (List.replicate 32 'c')

/-- C3: for every scanned record sequence and limit in [1,50], discovery
returns the distinct well-formed invocation ids in first-seen order truncated
at `limit` (hence duplicate-free, at most `limit` of them, malformed records
skipped), and on store order C,B,A,C,B with limit 2 it returns [C,B]. -/
theorem c3_discovery (lines : List (Option LogRecord)) (limit : Int)
    (h1 : 1 ≤ limit) (h2 : limit ≤ 50) :
    (discover limit lines = (dedupFrom [] (validInvs lines)).take limit.toNat ∧
     (discover limit lines).Nodup ∧
     ((discover limit lines).length : Int) ≤ limit ∧
     ∀ x ∈ discover limit lines, invRe x = true) ∧
    discover 2 [some ⟨none, none, some invC, none⟩, some ⟨none, none, some invB, none⟩,
      some ⟨none, none, some invA, none⟩, none, some ⟨none, none, some invC, none⟩,
      some ⟨none, none, some invB, none⟩] = [invC, invB] := by
  refine ⟨⟨discover_eq limit h1 lines, discover_nodup limit h1 lines,
    discover_length limit h1 lines, fun x hx => discover_invRe limit h1 lines x hx⟩, ?_⟩
  rfl

theorem c3_discovery_witness :
    discover 2 [some ⟨none, none, some invC, none⟩, some ⟨none, none, some invB, none⟩,
      some ⟨none, none, some invA, none⟩, none, some ⟨none, none, some invC, none⟩,
      some ⟨none, none, some invB, none⟩] = [invC, invB] :=
  (c3_discovery [] 2 (by decide) (by decide)).2

/-- C10: every successful `list_runs` returns at most `limit` runs, with
pairwise-distinct invocation ids, each a 32-character lowercase-hex token. -/
theorem c10_runs_invariants (env : Env) (u : String) (lim : Int) (res : RunsResult)
    (tr : List Query) (h : list_runs env u lim = (.ok res, tr)) :
    ((res.runs.length : Int) ≤ lim) ∧
    (res.runs.map (fun r => r.invocationId)).Nodup ∧
    ∀ r ∈ res.runs, invRe r.invocationId = true := by
  obtain ⟨hv, hl1, hl2, qs0, hres, hruns, htr⟩ := list_runs_ok env u lim res tr h
  have hmap : res.runs.map (fun r => r.invocationId) =
      discover lim (env.journalScan res.logUnit) := by
    rw [hruns, List.map_map]
    have : ((fun r : RunSummary => r.invocationId) ∘
        fun i => mkRun i (env.journalInv res.logUnit i)) = fun i => i := by
      funext i
      simp [mkRun]
    rw [this]
    simp
  refine ⟨?_, ?_, ?_⟩
  · have hlen : res.runs.length = (discover lim (env.journalScan res.logUnit)).length := by
      rw [hruns, List.length_map]
    rw [hlen]
    exact discover_length lim hl1 _
  · rw [hmap]
    exact discover_nodup lim hl1 _
  · intro r hr
    have : r.invocationId ∈ res.runs.map (fun r => r.invocationId) :=
      List.mem_map.mpr ⟨r, hr, rfl⟩
    rw [hmap] at this
    exact discover_invRe lim hl1 _ _ this

/-- Environment for the concrete run-history witnesses: the scan returns
records of invocations C, B, A, C, B (most recent first), and the per-id
queries return no records. -/
def envRuns : Env :=
  { unitFilesText := ""
    unitsText := ""
    timersRaw := []
    journalScan := fun _ => [some ⟨none, none, some invC, none⟩,
      some ⟨none, none, some invB, none⟩, some ⟨none, none, some invA, none⟩,
      none, some ⟨none, none, some invC, none⟩, some ⟨none, none, some invB, none⟩]
    journalInv := fun _ _ => []
    journalText := fun _ _ _ => ""
    depsText := fun _ => ""
    showText := fun _ => ""
    catText := fun _ => "" }

theorem c10_runs_invariants_witness :
    ((({ logUnit := "u.service", runs := [mkRun invC [], mkRun invB []] }
      : RunsResult).runs.length : Int) ≤ 2) :=
  (c10_runs_invariants envRuns "u.service" 2
    { logUnit := "u.service", runs := [mkRun invC [], mkRun invB []] }
    [Query.journalScan "u.service", Query.journalInv "u.service" invC,
      Query.journalInv "u.service" invB] (by rfl)).1

/-! ## Schedule resolution: helper lemmas -/

theorem schedKeyLe_refl (a : Timer) : schedKeyLe a a = true := by
  simp [schedKeyLe]

theorem schedKeyLe_trans (a b c : Timer) (hab : schedKeyLe a b = true)
    (hbc : schedKeyLe b c = true) : schedKeyLe a c = true := by
  simp only [schedKeyLe, Bool.or_eq_true, Bool.and_eq_true, Bool.not_eq_true,
    beq_iff_eq, decide_eq_true_eq] at hab hbc ⊢
  cases ha : a.nextMs.isNone <;> cases hb : b.nextMs.isNone <;>
    cases hc : c.nextMs.isNone <;> simp_all
  all_goals omega

theorem schedKeyLe_total (a b : Timer) : (schedKeyLe a b || schedKeyLe b a) = true := by
  simp only [schedKeyLe, Bool.or_eq_true, Bool.and_eq_true, Bool.not_eq_true,
    beq_iff_eq, decide_eq_true_eq]
  cases ha : a.nextMs.isNone <;> cases hb : b.nextMs.isNone <;> simp_all
  all_goals omega

/-- The head of the key-sorted candidate list is key-minimal among and a
member of the candidates. -/
theorem head_mergeSort_min (l : List Timer) (t : Timer)
    (h : (l.mergeSort schedKeyLe).head? = some t) :
    t ∈ l ∧ ∀ c ∈ l, schedKeyLe t c = true := by
  have hperm := List.mergeSort_perm l schedKeyLe
  have hsorted := List.sorted_mergeSort
    (fun a b c hab hbc => schedKeyLe_trans a b c hab hbc)
    (fun a b => schedKeyLe_total a b) l
  cases hms : l.mergeSort schedKeyLe with
  | nil => rw [hms] at h; exact Option.noConfusion h
  | cons x rest =>
    rw [hms] at h hperm hsorted
    have hx : x = t := by simpa using h
    constructor
    · rw [← hx]
      exact hperm.mem_iff.mp (List.mem_cons_self _ _)
    · intro c hc
      have hc2 := hperm.mem_iff.mpr hc
      rw [← hx]
      rcases List.mem_cons.mp hc2 with h3 | h3
      · rw [h3]
        exact schedKeyLe_refl x
      · exact List.rel_of_pairwise_cons hsorted h3

/-- A unit name with the `.service` suffix does not have the `.timer` suffix. -/
theorem service_not_timer (s : String) (h : pyEndsWith s ".service" = true) :
    pyEndsWith s ".timer" = false := by
  by_contra hne
  rw [Bool.not_eq_false] at hne
  have h1 : ".service".toList <:+ s.toList := by
    simpa [pyEndsWith] using h
  have h2 : ".timer".toList <:+ s.toList := by
    simpa [pyEndsWith] using hne
  rcases List.suffix_or_suffix_of_suffix h1 h2 with h3 | h3
  · have := h3.length_le
    simp at this
  · have := h3.sublist.subset
    have hm : 'm' ∈ ".service".toList := this (by decide)
    simp at hm

/-- Timers for the concrete resolution scenario: two timers activating the
same service, with next fire at 5000ms and absent respectively. -/
def env4 : Env :=
  { envRuns with timersRaw := [⟨some "a.timer", some "s.service", some 5000000, none⟩,
      ⟨some "b.timer", some "s.service", none, none⟩] }

/-- The resolver output expected in the concrete scenario of `env4`. -/
def sched4 : Sched :=
  { unit := "s.service", kind := "service", timer := some "a.timer",
    activates := some "s.service", nextMs := some 5000, lastMs := none }

unseal List.merge List.mergeSort in
/-- C4: for a validated `.service` unit, the resolver picks among the timers
whose `activates` equals the unit one whose `(no-next-fire, next-fire)` key is
minimal — absent next-fire sorts last — and returns all-null schedule fields
when no timer activates the unit; concretely, of two timers activating
`s.service` with next fire 5000ms and absent, the 5000ms one is returned. -/
theorem c4_timer_resolution :
    (∀ (env : Env) (unit : String) (s : Sched) (qs : List Query),
      validUnit unit = true → pyEndsWith unit ".service" = true →
      schedule_for_unit env unit = (.ok s, qs) →
      (((list_timers env).1.filter fun c => c.activates == some unit) = [] →
        s.timer = none ∧ s.nextMs = none ∧ s.lastMs = none) ∧
      (((list_timers env).1.filter fun c => c.activates == some unit) ≠ [] →
        ∃ t, t ∈ ((list_timers env).1.filter fun c => c.activates == some unit) ∧
          s.timer = t.timer ∧ s.nextMs = t.nextMs ∧ s.lastMs = t.lastMs ∧
          ∀ c ∈ ((list_timers env).1.filter fun c => c.activates == some unit),
            schedKeyLe t c = true)) ∧
    (schedule_for_unit env4 "s.service").1 = .ok sched4 := by
  constructor
  · intro env unit s qs hv hsvc h
    have htm := service_not_timer unit hsvc
    rw [schedule_for_unit, hv] at h
    simp only [Bool.not_true, Bool.false_eq_true, if_false, htm, hsvc, if_true] at h
    set cands := ((list_timers env).1.filter fun c => c.activates == some unit) with hcands
    have hfst := congrArg Prod.fst h
    simp only [Except.ok.injEq] at hfst
    have hs : s =
        { unit := unit, kind := "service",
          timer := ((cands.mergeSort schedKeyLe).head?).bind Timer.timer,
          activates := some unit,
          nextMs := ((cands.mergeSort schedKeyLe).head?).bind Timer.nextMs,
          lastMs := ((cands.mergeSort schedKeyLe).head?).bind Timer.lastMs } := by
      rw [← hfst]
    constructor
    · intro hnil
      rw [hs, hnil]
      simp
    · intro hne
      have hne2 : cands.mergeSort schedKeyLe ≠ [] := by
        intro hx
        apply hne
        have hp := List.mergeSort_perm cands schedKeyLe
        rw [hx] at hp
        exact hp.symm.eq_nil
      obtain ⟨t, rest, hms⟩ := List.exists_cons_of_ne_nil hne2
      have hhead : (cands.mergeSort schedKeyLe).head? = some t := by
        rw [hms]; rfl
      obtain ⟨hmem, hmin⟩ := head_mergeSort_min cands t hhead
      refine ⟨t, hmem, ?_, ?_, ?_, hmin⟩
      · rw [hs]; simp [hhead]
      · rw [hs]; simp [hhead]
      · rw [hs]; simp [hhead]
  · rfl

unseal List.merge List.mergeSort in
theorem c4_timer_resolution_witness :
    ∃ t, t ∈ ((list_timers env4).1.filter fun c => c.activates == some "s.service") ∧
      sched4.timer = t.timer ∧ sched4.nextMs = t.nextMs ∧ sched4.lastMs = t.lastMs ∧
      ∀ c ∈ ((list_timers env4).1.filter fun c => c.activates == some "s.service"),
        schedKeyLe t c = true :=
  (c4_timer_resolution.1 env4 "s.service" sched4 [Query.listTimers]
    (by rfl) (by rfl) (by rfl)).2 (by decide)

/-! ## Validation and dependency-filter lemmas -/

theorem sinsert_mem (l : List String) (x y : String) (h : x ∈ l) : x ∈ sinsert l y := by
  unfold sinsert
  split
  · exact h
  · exact List.mem_append.mpr (Or.inl h)

theorem sinsert_mem_self (l : List String) (x : String) : x ∈ sinsert l x := by
  unfold sinsert
  split
  · next hc => simpa using hc
  · exact List.mem_append.mpr (Or.inr (List.mem_cons_self _ _))

/-- A dependency query can only be appended by a non-skipped target. -/
theorem wantedStep_deps (env : Env) (acc : List String × List Query) (t x : String)
    (h : Query.listDeps x ∈ (wantedStep env acc t).2) :
    Query.listDeps x ∈ acc.2 ∨ (x = t ∧ targetSkip t = false) := by
  unfold wantedStep at h
  split at h
  · exact Or.inl h
  · next hskip =>
    rcases List.mem_append.mp h with h1 | h1
    · exact Or.inl h1
    · have hx : x = t := by
        have h2 := List.mem_singleton.mp h1
        injection h2 with h3
      exact Or.inr ⟨hx, by simpa using hskip⟩

theorem foldl_wantedStep_deps (env : Env) (x : String) :
    ∀ (ts : List String) (acc : List String × List Query),
      Query.listDeps x ∈ (ts.foldl (wantedStep env) acc).2 →
      Query.listDeps x ∈ acc.2 ∨ targetSkip x = false := by
  intro ts
  induction ts with
  | nil => intro acc h; exact Or.inl h
  | cons t ts ih =>
    intro acc h
    rcases ih (wantedStep env acc t) h with h1 | h1
    · rcases wantedStep_deps env acc t x h1 with h2 | h2
      · exact Or.inl h2
      · exact Or.inr (h2.1 ▸ h2.2)
    · exact Or.inr h1

/-- Unpacking a non-skipped target: well-formed, bounded, `.target`-suffixed. -/
theorem targetSkip_false (t : String) (h : targetSkip t = false) :
    validUnit t = true ∧ pyEndsWith t ".target" = true := by
  unfold targetSkip at h
  rw [Bool.or_eq_false_iff] at h
  obtain ⟨h123, h4⟩ := h
  rw [Bool.or_eq_false_iff] at h123
  obtain ⟨h12, h3⟩ := h123
  rw [Bool.or_eq_false_iff] at h12
  obtain ⟨h1, h2⟩ := h12
  have h3b : unitRe t = true := by simpa using h3
  have h4b : pyEndsWith t ".target" = true := by simpa using h4
  have h2b : ¬ 200 < t.length := by simpa using h2
  refine ⟨?_, h4b⟩
  unfold validUnit
  rw [Bool.and_eq_true, Bool.and_eq_true]
  refine ⟨⟨?_, ?_⟩, h3b⟩
  · simp [bne, h1]
  · exact decide_eq_true (by omega)

/-- The catalog queries of `list_units`, by definition. -/
theorem list_units_trace (env : Env) :
    (list_units env).2 = [Query.listUnitFiles, Query.listUnits] := rfl

/-- The queries of `units_for_targets`: the dependency queries of the wanted
computation followed by the two catalog queries. -/
theorem units_for_targets_trace (env : Env) (ts : List String) :
    (units_for_targets env ts).2 = (computeWanted env ts).2 ++ (list_units env).2 := by
  unfold units_for_targets
  split
  · next hts =>
    subst hts
    simp [computeWanted]
  · rcases hcw : computeWanted env ts with ⟨w, q⟩
    rcases hlu : list_units env with ⟨items, qs2⟩
    split
    next wanted qs heq =>
      obtain ⟨rfl, rfl⟩ : w = wanted ∧ q = qs := by
        injection heq with a b
        exact ⟨a, b⟩
      split
      · rfl
      · rfl

/-- Every dependency-listing query of `units_for_targets` carries a target
name that passed validation: a valid unit name with the `.target` suffix. -/
theorem units_for_targets_deps (env : Env) (ts : List String) (x : String)
    (h : Query.listDeps x ∈ (units_for_targets env ts).2) :
    validUnit x = true ∧ pyEndsWith x ".target" = true := by
  rw [units_for_targets_trace, list_units_trace] at h
  rcases List.mem_append.mp h with h1 | h1
  · rcases foldl_wantedStep_deps env x ts ([], []) h1 with h3 | h3
    · simp at h3
    · exact targetSkip_false x h3
  · simp at h1

/-- C5 (amended): the four single-unit entry points (`schedule_for_unit`,
`list_runs`, `logs_for_invocation`, `unit_detail`) reject an invalid unit
name with a validation error and issue no external query, while
`units_for_targets` does not reject: it silently skips invalid target names,
never issuing a dependency query for them. -/
theorem c5_validation (u : String) (h : validUnit u = false) :
    (∀ env, schedule_for_unit env u = (.error "invalid unit", [])) ∧
    (∀ env lim, list_runs env u lim = (.error "invalid unit", [])) ∧
    (∀ env inv lim, logs_for_invocation env u inv lim = (.error "invalid unit", [])) ∧
    (∀ env, unit_detail env u = (.error "invalid unit", [])) ∧
    (∀ env ts, ¬ Query.listDeps u ∈ (units_for_targets env ts).2) := by
  refine ⟨?_, ?_, ?_, ?_, ?_⟩
  · intro env; simp [schedule_for_unit, h]
  · intro env lim; simp [list_runs, h]
  · intro env inv lim; simp [logs_for_invocation, h]
  · intro env; simp [unit_detail, h]
  · intro env ts hmem
    have h2 := (units_for_targets_deps env ts u hmem).1
    rw [h] at h2
    exact Bool.noConfusion h2

theorem c5_validation_witness :
    unit_detail envRuns "bad name" = (.error "invalid unit", []) :=
  ((c5_validation "bad name" (by rfl)).2.2.2.1) envRuns

/-- Catalog texts for the fallback scenarios: one unit `x.service` present in
both listings. -/
def env6 : Env :=
  { envRuns with
    unitFilesText := "x.service enabled",
    unitsText := "x.service loaded active running desc here" }

/-- The single catalog entry of `env6`. -/
def catalog6 : UnitItem :=
  { unit := "x.service", unitFileState := some "enabled", loadState := some "loaded",
    activeState := some "active", subState := some "running",
    description := some "desc here" }

unseal List.merge List.mergeSort in
/-- C5 counterexample: `units_for_targets`, an entry point taking unit names,
given the invalid name `"bad name"` completes normally with the full catalog
and issues the two catalog queries — it does not reject with a validation
error, contradicting the claim for this entry point. -/
theorem c5_counterexample :
    validUnit "bad name" = false ∧
    units_for_targets env6 ["bad name"] =
      ([catalog6], [Query.listUnitFiles, Query.listUnits]) :=
  ⟨by decide, rfl⟩

/-! ## Fallback of the target filter -/

theorem foldl_depLineStep_mem (x : String) :
    ∀ (lines : List String) (w : List String), x ∈ w → x ∈ lines.foldl depLineStep w := by
  intro lines
  induction lines with
  | nil => intro w h; exact h
  | cons line rest ih =>
    intro w h
    rw [List.foldl_cons]
    apply ih
    unfold depLineStep
    simp only []
    split
    · exact h
    · split
      · split
        · exact sinsert_mem _ _ _ h
        · exact h
      · exact h

theorem wantedStep_mem (env : Env) (acc : List String × List Query) (t x : String)
    (h : x ∈ acc.1) : x ∈ (wantedStep env acc t).1 := by
  unfold wantedStep
  split
  · exact h
  · exact foldl_depLineStep_mem x _ _ (sinsert_mem _ _ _ h)

theorem foldl_wantedStep_mem (env : Env) (x : String) :
    ∀ (ts : List String) (acc : List String × List Query),
      x ∈ acc.1 → x ∈ (ts.foldl (wantedStep env) acc).1 := by
  intro ts
  induction ts with
  | nil => intro acc h; exact h
  | cons t rest ih =>
    intro acc h
    exact ih (wantedStep env acc t) (wantedStep_mem env acc t x h)

/-- A non-skipped target is always added to the wanted set. -/
theorem wanted_mem_of_valid (env : Env) :
    ∀ (ts : List String) (acc : List String × List Query) (t : String),
      t ∈ ts → targetSkip t = false → t ∈ (ts.foldl (wantedStep env) acc).1 := by
  intro ts
  induction ts with
  | nil => intro acc t h; simp at h
  | cons t0 rest ih =>
    intro acc t hmem hskip
    rcases List.mem_cons.mp hmem with rfl | hmem2
    · rw [List.foldl_cons]
      apply foldl_wantedStep_mem
      unfold wantedStep
      rw [hskip]
      simp only [Bool.false_eq_true, if_false]
      exact foldl_depLineStep_mem t _ _ (sinsert_mem_self _ _)
    · exact ih (wantedStep env acc t0) t hmem2 hskip

theorem foldl_wantedStep_skip_all (env : Env) :
    ∀ (ts : List String) (acc : List String × List Query),
      (∀ t ∈ ts, targetSkip t = true) → ts.foldl (wantedStep env) acc = acc := by
  intro ts
  induction ts with
  | nil => intro acc _; rfl
  | cons t rest ih =>
    intro acc hall
    have hstep : wantedStep env acc t = acc := by
      unfold wantedStep
      rw [hall t (List.mem_cons_self _ _)]
      simp
    rw [List.foldl_cons, hstep]
    exact ih acc fun t2 ht2 => hall t2 (List.mem_cons_of_mem _ ht2)

/-- C8 (amended): the full unmodified catalog is returned exactly when the
computed wanted set is empty, which happens iff every supplied target name is
skipped by validation (invalid or without the `.target` suffix).  A valid
`a.target` is itself added to the wanted set after its dependency query
succeeds, so an absent-but-valid target yields the filtered (possibly empty)
catalog, not the full listing. -/
theorem c8_fallback (env : Env) (targets : List String) :
    ((computeWanted env targets).1 = [] →
      units_for_targets env targets =
        ((list_units env).1, (computeWanted env targets).2 ++ (list_units env).2)) ∧
    ((computeWanted env targets).1 = [] ↔ ∀ t ∈ targets, targetSkip t = true) ∧
    (∀ t ∈ targets, targetSkip t = false → t ∈ (computeWanted env targets).1) := by
  refine ⟨?_, ⟨?_, ?_⟩, ?_⟩
  · intro hw
    unfold units_for_targets
    split
    · next hts =>
      subst hts
      simp [computeWanted]
    · rcases hcw : computeWanted env targets with ⟨w, q⟩
      rcases hlu : list_units env with ⟨items, qs2⟩
      rw [hcw] at hw
      obtain rfl : w = [] := hw
      rfl
  · intro hw t ht
    by_contra hskip
    rw [Bool.not_eq_true] at hskip
    have := wanted_mem_of_valid env targets ([], []) t ht hskip
    rw [show (targets.foldl (wantedStep env) ([], [])) = computeWanted env targets from rfl,
      hw] at this
    simp at this
  · intro hall
    unfold computeWanted
    rw [foldl_wantedStep_skip_all env targets ([], []) hall]
  · intro t ht hskip
    exact wanted_mem_of_valid env targets ([], []) t ht hskip

theorem c8_fallback_witness :
    units_for_targets env6 ["nope"] =
      ((list_units env6).1, (computeWanted env6 ["nope"]).2 ++ (list_units env6).2) :=
  (c8_fallback env6 ["nope"]).1 (by rfl)

unseal List.merge List.mergeSort in
/-- C8 counterexample: with the one-unit catalog of `env6` and a valid target
`a.target` whose dependency query succeeds with empty output, the wanted set
is the nonempty `[a.target]`, and the result is the empty filtered listing —
not the full catalog `[catalog6]`. -/
theorem c8_counterexample :
    units_for_targets env6 ["a.target"] =
      ([], [Query.listDeps "a.target", Query.listUnitFiles, Query.listUnits]) ∧
    (list_units env6).1 = [catalog6] ∧
    (computeWanted env6 ["a.target"]).1 = ["a.target"] :=
  ⟨rfl, rfl, rfl⟩

/-! ## Identifiers reaching external queries -/

theorem validUnit_unitRe (u : String) (h : validUnit u = true) : unitRe u = true := by
  unfold validUnit at h
  rw [Bool.and_eq_true, Bool.and_eq_true] at h
  exact h.2

/-- Well-formedness of the identifiers carried by one query: unit names match
`UNIT_RE`, invocation ids match `INVOCATION_RE`. -/
def queryIdsOk : Query → Bool
  | .journalScan u => unitRe u
  | .journalInv u i => unitRe u && invRe i
  | .journalLogs u i _ => unitRe u && invRe i
  | _ => true

theorem sched_trace_ok (env : Env) (u : String) :
    (schedule_for_unit env u).2.all queryIdsOk = true := by
  unfold schedule_for_unit
  split
  · rfl
  · split
    next timers qs heq =>
      have hqs : qs = [Query.listTimers] := by
        have h2 := congrArg Prod.snd heq
        simpa [list_timers] using h2.symm
      subst hqs
      split
      · rfl
      · split
        · rfl
        · rfl

theorem resolve_trace_ok (env : Env) (u : String) :
    (resolve_log_unit env u).2.all queryIdsOk = true := by
  unfold resolve_log_unit
  split
  · split
    · next e qs heq =>
      have h2 := sched_trace_ok env u
      rw [heq] at h2
      exact h2
    · next s qs heq =>
      have h2 := sched_trace_ok env u
      rw [heq] at h2
      split
      · split
        · exact h2
        · exact h2
      · exact h2
  · rfl

/-- The log unit of a validated unit always matches `UNIT_RE` (though not
necessarily the length bound): it is either the unit itself or a
pattern-checked `activates` target. -/
theorem resolve_log_unit_ok (env : Env) (u lu : String) (qs : List Query)
    (hv : validUnit u = true) (h : resolve_log_unit env u = (.ok lu, qs)) :
    unitRe lu = true := by
  unfold resolve_log_unit at h
  split at h
  · split at h
    · exact absurd h (by simp)
    · next s qs2 heq =>
      split at h
      · next a ha =>
        split at h
        · next hcond =>
          obtain rfl : a = lu := by
            have := congrArg Prod.fst h
            simpa using this
          rw [Bool.and_eq_true] at hcond
          exact hcond.2
        · obtain rfl : u = lu := by
            have := congrArg Prod.fst h
            simpa using this
          exact validUnit_unitRe u hv
      · obtain rfl : u = lu := by
          have := congrArg Prod.fst h
          simpa using this
        exact validUnit_unitRe u hv
  · obtain rfl : u = lu := by
      have := congrArg Prod.fst h
      simpa using this
    exact validUnit_unitRe u hv

/-- C6 (amended): every identifier interpolated into an external query by the
run-history and log paths is pattern-validated first — every unit name in a
query matches `UNIT_RE` and every invocation id matches `INVOCATION_RE`; the
length bound, however, is enforced only at entry, not on the timer-resolved
log unit (see the counterexample). -/
theorem c6_query_validation (env : Env) (u inv : String) (lim lim2 : Int) :
    ((list_runs env u lim).2.all queryIdsOk = true) ∧
    ((logs_for_invocation env u inv lim2).2.all queryIdsOk = true) := by
  constructor
  · unfold list_runs
    split
    · rfl
    · split
      · rfl
      · next hv hlim =>
        have hv2 : validUnit u = true := by simpa using hv
        have h1 : 1 ≤ lim := by
          simp only [Bool.or_eq_true, decide_eq_true_eq, not_or] at hlim
          omega
        split
        · next e qs heq =>
          have h2 := resolve_trace_ok env u
          rw [heq] at h2
          exact h2
        · next lu qs heq =>
          have hqs := resolve_trace_ok env u
          rw [heq] at hqs
          have hlu := resolve_log_unit_ok env u lu qs hv2 heq
          rw [List.all_eq_true]
          intro q hq
          rcases List.mem_append.mp hq with hq1 | hq1
          · rcases List.mem_append.mp hq1 with hq2 | hq2
            · exact List.all_eq_true.mp hqs q hq2
            · obtain rfl : q = Query.journalScan lu := by simpa using hq2
              simpa [queryIdsOk] using hlu
          · obtain ⟨i, hi, rfl⟩ := List.mem_map.mp hq1
            have hinv := discover_invRe lim h1 (env.journalScan lu) i hi
            simp [queryIdsOk, hlu, hinv]
  · unfold logs_for_invocation
    split
    · rfl
    · split
      · rfl
      · split
        · rfl
        · next hv hinv hlim =>
          have hv2 : validUnit u = true := by simpa using hv
          have hinv2 : invRe inv = true := by
            simp only [Bool.or_eq_true, Bool.not_eq_true, not_or] at hinv
            have := hinv.2
            simpa using this
          split
          · next e qs heq =>
            have h2 := resolve_trace_ok env u
            rw [heq] at h2
            exact h2
          · next lu qs heq =>
            have hqs := resolve_trace_ok env u
            rw [heq] at hqs
            have hlu := resolve_log_unit_ok env u lu qs hv2 heq
            rw [List.all_eq_true]
            intro q hq
            rcases List.mem_append.mp hq with hq1 | hq1
            · exact List.all_eq_true.mp hqs q hq1
            · obtain rfl : q = Query.journalLogs lu inv lim2 := by simpa using hq1
              simp [queryIdsOk, hlu, hinv2]

/-- A `UNIT_RE`-matching name of 201 characters: accepted by the pattern
check of `resolve_log_unit`, but over the 200-character entry bound. -/
def longUnit : String := String.mk (List.replicate 201 'a')

/-- A timer whose `activates` target is the over-long (but pattern-valid)
`longUnit`; its own log stream is empty. -/
def envLong : Env :=
  { envRuns with
    timersRaw := [⟨some "t.timer", some longUnit, some 5000000, none⟩],
    journalScan := fun _ => [] }

set_option maxRecDepth 8192 in
unseal List.merge List.mergeSort in
/-- C6 counterexample: resolving the runs of `t.timer` issues a journal query
whose unit name is 201 characters long — an identifier exceeding the
200-character bound reaches an external query, because `resolve_log_unit`
only pattern-checks the `activates` target. -/
theorem c6_counterexample :
    200 < longUnit.length ∧
    (list_runs envLong "t.timer" 1).2 =
      [Query.listTimers, Query.journalScan longUnit] :=
  ⟨by decide, rfl⟩

end SystemdUI
